import Mathlib

/-!
Shallow embedding of the `meta_mega_codex` configuration-resolution and
pipeline-orchestration subsystem, together with theorems settling the
specification claims about it.

The embedding models decoded YAML/JSON documents as a tagged value type
(`Value`), Python dictionaries as ordered association lists with unique keys,
and the filesystem as a finite association of resolved paths to decoded
documents.  Fallible Python code is embedded in the `Except` monad over an
error taxonomy mirroring the exceptions the source raises.  Recursive include
resolution is embedded with an explicit fuel argument; a stabilisation theorem
shows the result is fuel-independent once the fuel exceeds the number of
not-yet-visited documents, which is the formal counterpart of the source's
bounded recursion.
-/

namespace MetaMegaCodex

/-- A decoded YAML/JSON value: `null`, booleans, integers, strings, sequences
and mappings (ordered association lists, as Python dicts preserve insertion
order). -/
inductive Value where
  | null
  | bool (b : Bool)
  | int (n : Int)
  | str (s : String)
  | list (items : List Value)
  | obj (entries : List (String × Value))

/-- `d.get(k)` on the entry list of a Python dict: the value of the first
entry with key `k` (keys are unique in a real dict). -/
def lookupEntries : List (String × Value) → String → Option Value
  | [], _ => none
  | (k', v) :: rest, k => if k' = k then some v else lookupEntries rest k

/-- `d[k] = v` on a dict that already contains `k`: replace the value at the
first entry with key `k`, keeping its position. -/
def setKey : List (String × Value) → String → Value → List (String × Value)
  | [], _, _ => []
  | (k', v') :: rest, k, v =>
    if k' = k then (k', v) :: rest else (k', v') :: setKey rest k v

/-- Python falsiness of a decoded value: `None`, `False`, `0`, `""`, `[]` and
`{}` are falsy. -/
def pyFalsy : Value → Bool
  | .null => true
  | .bool b => !b
  | .int n => n == 0
  | .str s => s == ""
  | .list items => items.isEmpty
  | .obj entries => entries.isEmpty

/-- A single-quote character, used by Python `repr`. -/
def squote : String := String.mk [Char.ofNat 39]

mutual

/-- Python `repr()` of a decoded value.  Strings are quoted with single
quotes (escaping of quotes inside the string is not modelled). -/
def pyRepr : Value → String
  | .null => "None"
  | .bool true => "True"
  | .bool false => "False"
  | .int n => toString n
  | .str s => squote ++ s ++ squote
  | .list items => "[" ++ String.intercalate ", " (pyReprList items) ++ "]"
  | .obj entries => "\x7b" ++ String.intercalate ", " (pyReprEntries entries) ++ "\x7d"

/-- `repr` of each element of a sequence. -/
def pyReprList : List Value → List String
  | [] => []
  | v :: rest => pyRepr v :: pyReprList rest

/-- `repr(key): repr(value)` for each entry of a mapping. -/
def pyReprEntries : List (String × Value) → List String
  | [] => []
  | (k, v) :: rest => (squote ++ k ++ squote ++ ": " ++ pyRepr v) :: pyReprEntries rest

end

/-- Python `str()` of a decoded value. -/
def pyStr (v : Value) : String :=
  match v with
  | .str s => s
  | v => pyRepr v

/-- The error taxonomy of the embedded Python code: the exception classes the
source raises, plus `recursionError` standing for exhausted recursion fuel. -/
inductive PyErr where
  | valueError (msg : String)
  | typeError (msg : String)
  | fileNotFoundError (msg : String)
  | attributeError (msg : String)
  | lookupError (msg : String)
  | recursionError

mutual

/-- `_deep_merge(base, incoming)` from `codex_relay.py` (lines 21-32), acting
on the entry lists of the two dicts: iterate the incoming entries in order;
when a key is present in the accumulated result and both values are dicts,
merge recursively in place; otherwise the incoming value replaces (or is
appended). -/
def deepMerge (base : List (String × Value)) : List (String × Value) → List (String × Value)
  | [] => base
  | (k, v) :: rest => deepMerge (deepMergeStep base k v) rest
termination_by inc => sizeOf inc

/-- One iteration of the `_deep_merge` loop: assign key `k`, value `v` into
`base`, merging recursively when both old and new values are dicts. -/
def deepMergeStep (base : List (String × Value)) (k : String) (v : Value) :
    List (String × Value) :=
  match lookupEntries base k with
  | some (Value.obj bo) =>
    match v with
    | Value.obj vo => setKey base k (Value.obj (deepMerge bo vo))
    | _ => setKey base k v
  | some _ => setKey base k v
  | none => base ++ [(k, v)]
termination_by sizeOf v

end

/-- The filesystem, as the finite association of resolved document paths to
their decoded YAML contents.  A path absent from the association is a missing
file; YAML decoding itself is external to the embedded code. -/
def FS := List (String × Value)

/-- Content of the file at `path`, if it exists. -/
def fsLookup : FS → String → Option Value
  | [], _ => none
  | (p, v) :: rest, path => if p = path then some v else fsLookup rest path

/-- The paths of the files that exist. -/
def fsKeys (fs : FS) : List String := fs.map Prod.fst

/-- `_load_yaml(path)` from `codex_relay.py` (lines 35-38): opening a missing
file raises `FileNotFoundError`; a falsy decode (`None`, empty document, ...)
is replaced by `{}` by the `or {}`; NOTE: unlike `codex_utils.load_yaml`, this
loader performs no top-level mapping check. -/
def loadYamlRelay (fs : FS) (path : String) : Except PyErr Value :=
  match fsLookup fs path with
  | none => .error (.fileNotFoundError path)
  | some raw => .ok (if pyFalsy raw then Value.obj [] else raw)

/-- Python iteration over a value (`for x in v`): sequences yield their items,
strings their characters, dicts their keys; other values are not iterable and
raise `TypeError`. -/
def iterValue : Value → Except PyErr (List Value)
  | .list items => .ok items
  | .str s => .ok (s.data.map (fun c => Value.str (String.mk [c])))
  | .obj entries => .ok (entries.map (fun kv => Value.str kv.1))
  | _ => .error (.typeError "object is not iterable")

/-- The body of a document minus its `include` key:
`{k: v for k, v in data.items() if k != "include"}`. -/
def stripInclude : List (String × Value) → List (String × Value)
  | [] => []
  | (k, v) :: rest =>
    if k = "include" then stripInclude rest else (k, v) :: stripInclude rest

/-- `_load_stack_with_includes(path, ancestry)` from `codex_relay.py`
(lines 41-52).  `res parent name` models `(parent_path.parent / name).resolve()`,
the resolution of an include reference against the including document's
directory; it is kept abstract since the claims hold for every such
resolution function.  The `fuel` argument bounds the recursion depth of the
embedding; `loadStack_fuel_stable` below shows any fuel larger than the number
of not-yet-visited documents gives the same result, so the embedding agrees
with the source wherever the source terminates. -/
def loadStack (res : String → String → String) (fs : FS) :
    Nat → String → List String → Except PyErr (List (String × Value))
  | 0, _, _ => .error .recursionError
  | fuel + 1, path, ancestry =>
    if path ∈ ancestry then
      .error (.valueError ("Circular include detected: " ++
        String.intercalate " -> " (ancestry ++ [path])))
    else
      match fsLookup fs path with
      | none => .error (.fileNotFoundError path)
      | some raw =>
        let data := if pyFalsy raw then Value.obj [] else raw
        match data with
        | .obj ds =>
          let incVal := (lookupEntries ds "include").getD Value.null
          match iterValue (if pyFalsy incVal then Value.list [] else incVal) with
          | .error e => .error e
          | .ok items =>
            match items.mapM (fun it =>
                match it with
                | .str name => loadStack res fs fuel (res path name) (ancestry ++ [path])
                | _ => .error (.typeError "unsupported operand for path join")) with
            | .error e => .error e
            | .ok children =>
              let merged := children.foldl deepMerge []
              .ok (deepMerge merged (stripInclude ds))
        | _ => .error (.attributeError "get")

/-! ### Pipeline orchestrator: payload gate (`_parse_payload`) -/

/-- The tail of `_parse_payload` after the size gate: `json.loads(payload_str
or "{}")` followed by the structural object check.  The JSON parser itself is
external; it is passed in as `parse`. -/
def parsePayloadParse (parse : String → Except PyErr Value) (payloadStr : String) :
    Except PyErr (List (String × Value)) :=
  match parse (if payloadStr = "" then "\x7b\x7d" else payloadStr) with
  | .error e => .error e
  | .ok (.obj es) => .ok es
  | .ok _ => .error (.typeError "Payload must be a JSON object.")

/-- `_parse_payload(payload_str, max_bytes)` from `codex_relay.py`
(lines 93-100): if `max_bytes` is truthy (not `None`, not `0`) and the UTF-8
encoded length of the payload exceeds it, raise `ValueError` before any
parsing; otherwise parse and check the result is an object. -/
def parsePayload (parse : String → Except PyErr Value) (payloadStr : String)
    (maxBytes : Option Int) : Except PyErr (List (String × Value)) :=
  match maxBytes with
  | some m =>
    if m ≠ 0 ∧ (payloadStr.utf8ByteSize : Int) > m then
      .error (.valueError ("Payload exceeds relay policy limit of " ++ toString m ++ " bytes."))
    else
      parsePayloadParse parse payloadStr
  | none => parsePayloadParse parse payloadStr

/-! ### Advisory service (`CodexExecutor._generate_advisory`) -/

/-- `_coerce_list(value)` from `codex_executor.py` (lines 34-39): `None`
becomes `[]`, a list is stringified element-wise, any other value becomes a
one-element list of its string form.  The incoming `None` covers both an
absent key and an explicit `null`, since `payload.get` returns `None` for
both. -/
def coerceList : Value → List String
  | .null => []
  | .list items => items.map pyStr
  | v => [pyStr v]

/-- Python `sep.join(parts)`: every part must be a string, otherwise
`TypeError`. -/
def strJoin (sep : String) (parts : List Value) : Except PyErr String :=
  match parts.mapM (fun v => match v with | Value.str s => some s | _ => none) with
  | some ss => .ok (String.intercalate sep ss)
  | none => .error (.typeError "sequence item: expected str instance")

/-- The `Advisory` dataclass of `codex_executor.py`.  `recommended_actions`
keeps decoded values because the policy-supplied default actions are inserted
unchecked; `risk_level` keeps a decoded value because a truthy payload field
is passed through unchecked. -/
structure Advisory where
  summary : String
  recommended_actions : List Value
  confidence : String
  risk_level : Value

/-- `CodexExecutor._generate_advisory(payload)` from `codex_executor.py`
(lines 88-115), with `policies` the executor policy mapping held by the
instance.  Mirrors the source order: summary first (its `join` can raise),
then recommended actions (`list(...)` can raise), then risk level and
confidence. -/
def generateAdvisory (policies payload : List (String × Value)) : Except PyErr Advisory :=
  let summaryPrefix := (lookupEntries policies "summary_prefix").getD (Value.str "Advisor Insight")
  let objectives := coerceList ((lookupEntries payload "objectives").getD Value.null)
  let blockers := coerceList ((lookupEntries payload "blockers").getD Value.null)
  let contextV := (lookupEntries payload "context").getD Value.null
  let context := if pyFalsy contextV then Value.str "No additional context supplied." else contextV
  let summaryParts := [summaryPrefix, context] ++
    (match objectives with
     | [] => []
     | o :: _ => [Value.str ("Core objective: " ++ o)])
  match strJoin " — " summaryParts with
  | .error e => .error e
  | .ok summary =>
    match iterValue ((lookupEntries policies "default_actions").getD (Value.list [])) with
    | .error e => .error e
    | .ok defaultActions =>
      let actions1 := defaultActions ++
        (match blockers with
         | [] => []
         | b :: _ => [Value.str ("Resolve blocker: " ++ b)])
      let actions2 := actions1 ++
        (match objectives with
         | [] => []
         | o :: _ => [Value.str ("Advance objective: " ++ o)])
      let recommended :=
        if actions2.isEmpty then [Value.str "Document a concrete next step."] else actions2
      let riskV := (lookupEntries payload "risk_level").getD Value.null
      .ok ⟨summary, recommended, if blockers.isEmpty then "high" else "balanced",
        if pyFalsy riskV then (if blockers.isEmpty then Value.str "low" else Value.str "medium")
        else riskV⟩

/-! ### Redaction filter (`codex_utils.redact`) -/

/-- The sensitive-key set `{str(key) for key in (keys_to_redact or [])}`; the
key collection parameter is modelled as the decoded sequence it is invoked
with. -/
def sensitiveOf (keysToRedact : List Value) : List String := keysToRedact.map pyStr

mutual

/-- `redact(obj, keys_to_redact)` from `codex_utils.py` (lines 21-36): in a
mapping, an entry whose key is sensitive is replaced by the fixed marker
without recursing into its value, other entries recurse; sequences map
element-wise; anything else is returned unchanged. -/
def redact (obj : Value) (keysToRedact : List Value) : Value :=
  match obj with
  | .obj entries => .obj (redactEntries entries keysToRedact)
  | .list items => .list (redactList items keysToRedact)
  | .null => .null
  | .bool b => .bool b
  | .int n => .int n
  | .str s => .str s
termination_by sizeOf obj

/-- Element-wise redaction of a sequence. -/
def redactList : List Value → List Value → List Value
  | [], _ => []
  | v :: rest, ks => redact v ks :: redactList rest ks
termination_by l _ => sizeOf l

/-- Entry-wise redaction of a mapping. -/
def redactEntries : List (String × Value) → List Value → List (String × Value)
  | [], _ => []
  | (k, v) :: rest, ks =>
    (if k ∈ sensitiveOf ks then (k, Value.str "***REDACTED***") else (k, redact v ks)) ::
      redactEntries rest ks
termination_by es _ => sizeOf es

end


/-! ### Stack registry (`_discover_stack`, scanning branch) -/

/-- Python `v == s` for a string literal `s`: true exactly when `v` is that
string (cross-type `==` against a `str` is `False`). -/
def pyEqStr (v : Value) (s : String) : Bool :=
  match v with
  | .str t => t == s
  | _ => false

/-- The routing check of `_discover_stack` (lines 70-71): `routing =
stack.get("routing") or {}` followed by `routing.get("persona") == persona and
routing.get("role") == role`; a truthy non-mapping `routing` makes `.get`
raise `AttributeError`. -/
def matchesRouting (persona role : String) (stack : List (String × Value)) :
    Except PyErr Bool :=
  let routingV := (lookupEntries stack "routing").getD Value.null
  match (if pyFalsy routingV then Value.obj [] else routingV) with
  | .obj entries =>
    .ok (pyEqStr ((lookupEntries entries "persona").getD Value.null) persona &&
      pyEqStr ((lookupEntries entries "role").getD Value.null) role)
  | _ => .error (.attributeError "get")

/-- The loop body of `_discover_stack` (lines 68-73) over an already-sorted
candidate list: resolve each candidate in turn and return the first whose
routing matches, else `LookupError`. -/
def discoverScan (res : String → String → String) (fs : FS) (fuel : Nat)
    (persona role : String) : List String → Except PyErr (List (String × Value) × String)
  | [] => .error (.lookupError ("No stack found for persona=" ++ persona ++
      " role=" ++ role ++ "."))
  | c :: rest =>
    match loadStack res fs fuel c [] with
    | .error e => .error e
    | .ok stack =>
      match matchesRouting persona role stack with
      | .error e => .error e
      | .ok true => .ok (stack, c)
      | .ok false => discoverScan res fs fuel persona role rest

/-- `_discover_stack(persona, role, stacks_dir, None)` from `codex_relay.py`
(lines 55-73), scanning branch: `sorted(stacks_dir.glob("*.yaml"))` sorts the
same-directory candidate file names lexicographically, then the first
resolved stack whose routing matches is returned.  `files` is the glob
result in whatever order the filesystem enumerates it. -/
def discoverStack (res : String → String → String) (fs : FS) (fuel : Nat)
    (persona role : String) (files : List String) :
    Except PyErr (List (String × Value) × String) :=
  discoverScan res fs fuel persona role (List.insertionSort (· ≤ ·) files)

/-- Whether a candidate file resolves successfully and its routing matches the
requested persona/role: the test the scan loop applies to each candidate. -/
def stackMatches (res : String → String → String) (fs : FS) (fuel : Nat)
    (persona role : String) (f : String) : Bool :=
  match loadStack res fs fuel f [] with
  | .error _ => false
  | .ok stack =>
    match matchesRouting persona role stack with
    | .ok b => b
    | .error _ => false

/-! ### Digest aggregator (`codex_digest_report._collect_runs`) -/

/-- The artifacts of one run-store directory: for each artifact file, `none`
when the file does not exist, `some v` when it exists and decodes to the JSON
value `v`. -/
structure RunStore where
  relay : Option Value
  evaluation : Option Value
  logArtifact : Option Value

/-- `_load_json(path)` from `codex_digest_report.py` (lines 17-21): a missing
file yields `{}`, an existing one its decoded content. -/
def loadJson : Option Value → Value
  | none => Value.obj []
  | some v => v

/-- One immediate child of the `runs` root: a plain file, or a directory with
its own artifacts, its immediate subdirectories (name and artifacts), and its
immediate plain files. -/
inductive VEntry where
  | file (name : String)
  | dir (name : String) (store : RunStore) (subdirs : List (String × RunStore))
      (subfiles : List String)

/-- The run-store candidate collection of `_collect_runs` (lines 28-37): a
directory directly containing `relay.json` is itself a run store; otherwise
its immediate subdirectories are taken as run stores.  A candidate is
identified by its path parts below the `runs` root. -/
def collectCandidates (root : List VEntry) : List (List String × RunStore) :=
  root.flatMap (fun e =>
    match e with
    | .file _ => []
    | .dir name store subdirs _ =>
      if store.relay.isSome then [([name], store)]
      else subdirs.map (fun ns => ([name, ns.1], ns.2)))

/-- Path-object ordering: compare the tuples of path parts componentwise, a
strict prefix ordering first. -/
def pathLe : List String → List String → Bool
  | [], _ => true
  | _ :: _, [] => false
  | a :: as, b :: bs => if a = b then pathLe as bs else decide (a < b)

/-- The descending candidate order of `sorted(run_dirs, reverse=True)`:
`a` precedes `b` when `b`'s path is `pathLe` `a`'s. -/
def descBy (a b : (List String × RunStore)) : Prop := pathLe b.1 a.1 = true

instance : DecidableRel descBy := fun a b => instDecidableEqBool (pathLe b.1 a.1) true

/-- Python list slicing `l[:n]` for an `int` bound: nonnegative bounds
truncate from the front, negative bounds drop `-n` elements from the end. -/
def pyTake (l : List α) (n : Int) : List α :=
  if 0 ≤ n then l.take n.toNat else l.take (l.length - (-n).toNat)

/-- Python `len(v)` on a decoded value: defined for strings, sequences and
mappings, `TypeError` otherwise. -/
def pyLen : Value → Except PyErr Nat
  | .str s => .ok s.length
  | .list items => .ok items.length
  | .obj entries => .ok entries.length
  | _ => .error (.typeError "object has no len")

/-- A per-run digest record, as assembled by `_collect_runs` (lines 48-60).
`run_dir` holds the candidate's path parts below the `runs` root (the
rendered absolute path shares a constant prefix). -/
structure DigestRecord where
  run_dir : List String
  timestamp : Option Value
  persona : Option Value
  role : Option Value
  pipeline : Option Value
  outputs : Value
  evaluation_schema : Option Value
  evaluation_criteria : Nat
  logger_present : Bool

/-- The record-assembly loop body of `_collect_runs` for one run store:
tolerant loads of `relay.json`, `evaluation.json` and `logger.json` (missing
files become `{}`), `.get` field accesses, `len` of the criteria, and
`bool(logger)` for the log-presence flag. -/
def mkRecord (p : List String) (s : RunStore) : Except PyErr DigestRecord :=
  match loadJson s.relay, loadJson s.evaluation with
  | .obj relayEntries, .obj evalEntries =>
    match pyLen ((lookupEntries evalEntries "criteria").getD (Value.list [])) with
    | .error e => .error e
    | .ok criteriaLen =>
      .ok { run_dir := p
            timestamp := lookupEntries relayEntries "timestamp"
            persona := lookupEntries relayEntries "persona"
            role := lookupEntries relayEntries "role"
            pipeline := lookupEntries relayEntries "pipeline"
            outputs := (lookupEntries relayEntries "outputs").getD (Value.obj [])
            evaluation_schema := lookupEntries evalEntries "schema_version"
            evaluation_criteria := criteriaLen
            logger_present := !(pyFalsy (loadJson s.logArtifact)) }
  | _, _ => .error (.attributeError "get")

/-- `_collect_runs(vault_dir, limit)` from `codex_digest_report.py`
(lines 24-61), for an existing `runs` root with entries `root`: collect the
candidate run stores, sort them by path in descending order
(`sorted(run_dirs, reverse=True)`), truncate to `limit` when it is not
`None`, and assemble a record per remaining store. -/
def collectRuns (root : List VEntry) (limit : Option Int) :
    Except PyErr (List DigestRecord) :=
  let cands := collectCandidates root
  let sortedCands := List.insertionSort descBy cands
  let trimmed :=
    match limit with
    | none => sortedCands
    | some n => pyTake sortedCands n
  trimmed.mapM (fun cs => mkRecord cs.1 cs.2)

mutual

/-- Well-formed decoded document value: every mapping in it has pairwise
distinct keys (true of anything produced by a YAML/JSON decoder). -/
def wfValue : Value → Bool
  | .obj es => decide (es.map Prod.fst).Nodup && wfEntriesVals es
  | _ => true
termination_by v => sizeOf v

/-- All entry values of a mapping are well-formed. -/
def wfEntriesVals : List (String × Value) → Bool
  | [] => true
  | (_, v) :: rest => wfValue v && wfEntriesVals rest
termination_by es => sizeOf es

end

/-- `Overrides b r`: the resolved value `r` respects the body value `b` under
the right-biased recursive merge — a non-mapping body value appears verbatim,
and every key of a mapping body value appears in `r` with a value it in turn
overrides. -/
inductive Overrides : Value → Value → Prop where
  | nonObj (v : Value) : (∀ es, v ≠ Value.obj es) → Overrides v v
  | obj (bs rs : List (String × Value)) :
      (∀ k w, lookupEntries bs k = some w → (lookupEntries rs k).isSome) →
      (∀ k w u, lookupEntries bs k = some w → lookupEntries rs k = some u → Overrides w u) →
      Overrides (Value.obj bs) (Value.obj rs)

/-- The number of existing documents not yet on the recursion path: an upper
bound on the remaining include-recursion depth. -/
def measureA (fs : FS) (anc : List String) : Nat :=
  ((fsKeys fs).filter (fun p => decide (p ∉ anc))).length

instance instIsTotalDescBy : IsTotal (List String × RunStore) descBy := by
  constructor
  have key : ∀ x y : List String, pathLe x y = true ∨ pathLe y x = true := by
    intro a
    induction a with
    | nil => intro b; left; rfl
    | cons x as ih =>
      intro b
      cases b with
      | nil => right; rfl
      | cons y bs =>
        rw [pathLe, pathLe]
        by_cases hxy : x = y
        · subst hxy
          simp only [if_pos rfl]
          exact ih bs
        · have hyx : ¬ (y = x) := fun h => hxy h.symm
          rw [if_neg hxy, if_neg hyx]
          rcases lt_or_gt_of_ne hxy with h | h
          · left; exact decide_eq_true h
          · right; exact decide_eq_true h
  intro a b
  exact key b.1 a.1

instance instIsTransDescBy : IsTrans (List String × RunStore) descBy := by
  constructor
  have key : ∀ x y z : List String,
      pathLe x y = true → pathLe y z = true → pathLe x z = true := by
    intro a
    induction a with
    | nil => intro b c _ _; rfl
    | cons x as ih =>
      intro b c hab hbc
      cases b with
      | nil => rw [pathLe] at hab; exact absurd hab (by simp)
      | cons y bs =>
        cases c with
        | nil => rw [pathLe] at hbc; exact absurd hbc (by simp)
        | cons z cs =>
          rw [pathLe] at hab hbc ⊢
          by_cases hxy : x = y
          · subst hxy
            rw [if_pos rfl] at hab
            by_cases hxz : x = z
            · subst hxz
              rw [if_pos rfl] at hbc ⊢
              exact ih bs cs hab hbc
            · rw [if_neg hxz] at hbc ⊢
              exact hbc
          · rw [if_neg hxy] at hab
            have hxylt : x < y := of_decide_eq_true hab
            by_cases hyz : y = z
            · subst hyz
              rw [if_neg hxy]
              exact decide_eq_true hxylt
            · rw [if_neg hyz] at hbc
              have hyzlt : y < z := of_decide_eq_true hbc
              have hxz : x < z := lt_trans hxylt hyzlt
              rw [if_neg (fun h : x = z => absurd (h ▸ hxz) (lt_irrefl z))]
              exact decide_eq_true hxz
  intro a b c hab hbc
  exact key c.1 b.1 a.1 hbc hab

/-- Ten example run stores, each a directory holding a `relay.json` mapping,
used to exercise the digest aggregator. -/
def sampleVault : List VEntry :=
  [VEntry.dir "run01" ⟨some (Value.obj []), none, none⟩ [] [],
   VEntry.dir "run02" ⟨some (Value.obj []), none, none⟩ [] [],
   VEntry.dir "run03" ⟨some (Value.obj []), none, none⟩ [] [],
   VEntry.dir "run04" ⟨some (Value.obj []), none, none⟩ [] [],
   VEntry.dir "run05" ⟨some (Value.obj []), none, none⟩ [] [],
   VEntry.dir "run06" ⟨some (Value.obj []), none, none⟩ [] [],
   VEntry.dir "run07" ⟨some (Value.obj []), none, none⟩ [] [],
   VEntry.dir "run08" ⟨some (Value.obj []), none, none⟩ [] [],
   VEntry.dir "run09" ⟨some (Value.obj []), none, none⟩ [] [],
   VEntry.dir "run10" ⟨some (Value.obj []), none, none⟩ [] []]

/-! ### Association-list and merge lemmas -/

theorem lookupEntries_setKey_self {base : List (String × Value)} {k : String} {u v : Value}
    (h : lookupEntries base k = some u) :
    lookupEntries (setKey base k v) k = some v := by
  induction base with
  | nil => simp [lookupEntries] at h
  | cons hd tl ih =>
    obtain ⟨k', v'⟩ := hd
    by_cases hk : k' = k
    · subst hk
      simp [setKey, lookupEntries]
    · simp [setKey, lookupEntries, hk] at h ⊢
      exact ih h

theorem lookupEntries_setKey_ne {base : List (String × Value)} {k' k : String} {v : Value}
    (h : k' ≠ k) :
    lookupEntries (setKey base k' v) k = lookupEntries base k := by
  induction base with
  | nil => simp [setKey]
  | cons hd tl ih =>
    obtain ⟨k'', v''⟩ := hd
    by_cases hk : k'' = k'
    · subst hk
      simp [setKey, lookupEntries, h]
    · simp [setKey, lookupEntries, hk]
      split <;> simp_all

theorem lookupEntries_append_right {base : List (String × Value)} {k : String} {v : Value}
    (h : lookupEntries base k = none) :
    lookupEntries (base ++ [(k, v)]) k = some v := by
  induction base with
  | nil => simp [lookupEntries]
  | cons hd tl ih =>
    obtain ⟨k', v'⟩ := hd
    by_cases hk : k' = k
    · simp [lookupEntries, hk] at h
    · simp [lookupEntries, hk] at h ⊢
      exact ih h

theorem lookupEntries_append_ne {base : List (String × Value)} {k' k : String} {v : Value}
    (h : k' ≠ k) :
    lookupEntries (base ++ [(k', v)]) k = lookupEntries base k := by
  induction base with
  | nil => simp [lookupEntries, h]
  | cons hd tl ih =>
    obtain ⟨k'', v''⟩ := hd
    by_cases hk : k'' = k
    · simp [lookupEntries, hk]
    · simp [lookupEntries, hk]
      exact ih

theorem deepMergeStep_lookup_ne {base : List (String × Value)} {k' k : String} {v : Value}
    (h : k' ≠ k) :
    lookupEntries (deepMergeStep base k' v) k = lookupEntries base k := by
  rw [deepMergeStep.eq_def]
  split
  · split
    · exact lookupEntries_setKey_ne h
    · exact lookupEntries_setKey_ne h
  · exact lookupEntries_setKey_ne h
  · exact lookupEntries_append_ne h

theorem deepMerge_lookup_notin {inc : List (String × Value)} {k : String}
    (h : ∀ v, (k, v) ∉ inc) :
    ∀ base, lookupEntries (deepMerge base inc) k = lookupEntries base k := by
  induction inc with
  | nil => intro base; rw [deepMerge]
  | cons hd tl ih =>
    intro base
    obtain ⟨k', v'⟩ := hd
    have hk : k' ≠ k := by
      intro hk
      exact h v' (by simp [hk])
    rw [deepMerge]
    rw [ih (fun v hv => h v (List.mem_cons_of_mem _ hv))]
    exact deepMergeStep_lookup_ne hk

theorem lookupEntries_mem {es : List (String × Value)} {k : String} {v : Value}
    (h : lookupEntries es k = some v) : (k, v) ∈ es := by
  induction es with
  | nil => simp [lookupEntries] at h
  | cons hd tl ih =>
    obtain ⟨k', v'⟩ := hd
    by_cases hk : k' = k
    · subst hk
      simp [lookupEntries] at h
      simp [h]
    · simp [lookupEntries, hk] at h
      exact List.mem_cons_of_mem _ (ih h)

theorem deepMergeStep_lookup_self (base : List (String × Value)) (k : String) (v : Value) :
    ∃ w, lookupEntries (deepMergeStep base k v) k = some w ∧
      (w = v ∨ ∃ bo vo, v = Value.obj vo ∧ w = Value.obj (deepMerge bo vo)) := by
  rcases hbase : lookupEntries base k with _ | old
  · refine ⟨v, ?_, Or.inl rfl⟩
    simp only [deepMergeStep.eq_def, hbase]
    exact lookupEntries_append_right hbase
  · cases old <;> cases v <;>
      (first
        | (rename_i bo vo
           refine ⟨Value.obj (deepMerge bo vo), ?_, Or.inr ⟨bo, vo, rfl, rfl⟩⟩
           simp only [deepMergeStep.eq_def, hbase]
           exact lookupEntries_setKey_self hbase)
        | (refine ⟨_, ?_, Or.inl rfl⟩
           simp only [deepMergeStep.eq_def, hbase]
           exact lookupEntries_setKey_self hbase))

theorem deepMerge_lookup_right {inc : List (String × Value)} {k : String} {v : Value}
    (hnd : (inc.map Prod.fst).Nodup) (h : lookupEntries inc k = some v) :
    ∀ base, ∃ w, lookupEntries (deepMerge base inc) k = some w ∧
      (w = v ∨ ∃ bo vo, v = Value.obj vo ∧ w = Value.obj (deepMerge bo vo)) := by
  induction inc with
  | nil => simp [lookupEntries] at h
  | cons hd tl ih =>
    intro base
    obtain ⟨k', v'⟩ := hd
    rw [List.map_cons] at hnd
    obtain ⟨hknotin, hnd'⟩ := List.nodup_cons.mp hnd
    by_cases hk : k' = k
    · subst hk
      simp only [lookupEntries, if_pos rfl] at h
      injection h with h
      subst h
      have hnotin : ∀ u, (k', u) ∉ tl := by
        intro u hu
        have h2 : (k', u).1 ∈ tl.map Prod.fst := List.mem_map_of_mem Prod.fst hu
        exact hknotin h2
      rw [deepMerge]
      rw [deepMerge_lookup_notin hnotin]
      exact deepMergeStep_lookup_self base k' _
    · simp only [lookupEntries, if_neg hk] at h
      rw [deepMerge]
      exact ih hnd' h (deepMergeStep base k' v')

/-! ### Body-over-include precedence (C1) -/


theorem overridesRefl : ∀ (v : Value), Overrides v v := by
  intro v
  cases v with
  | obj es =>
    apply Overrides.obj
    · intro k w hw
      rw [hw]
      rfl
    · intro k w u hw hu
      rw [hw] at hu
      injection hu with hu
      subst hu
      have hmem := lookupEntries_mem hw
      exact overridesRefl w
  | null => exact Overrides.nonObj _ (fun es h => Value.noConfusion h)
  | bool b => exact Overrides.nonObj _ (fun es h => Value.noConfusion h)
  | int n => exact Overrides.nonObj _ (fun es h => Value.noConfusion h)
  | str s => exact Overrides.nonObj _ (fun es h => Value.noConfusion h)
  | list items => exact Overrides.nonObj _ (fun es h => Value.noConfusion h)
termination_by v => sizeOf v
decreasing_by
  have h1 := List.sizeOf_lt_of_mem hmem
  simp only [Prod.mk.sizeOf_spec, Value.obj.sizeOf_spec] at h1 ⊢
  omega

theorem wfEntriesVals_lookup {es : List (String × Value)} {k : String} {v : Value}
    (hwf : wfEntriesVals es = true) (h : (k, v) ∈ es) : wfValue v = true := by
  induction es with
  | nil => simp at h
  | cons hd tl ih =>
    obtain ⟨k', v'⟩ := hd
    rw [wfEntriesVals] at hwf
    rw [Bool.and_eq_true] at hwf
    rcases List.mem_cons.mp h with h | h
    · simp only [Prod.mk.injEq] at h
      rw [h.2]
      exact hwf.1
    · exact ih hwf.2 h

theorem mergeOverrides : ∀ (vo bo : List (String × Value)),
    wfValue (Value.obj vo) = true →
    Overrides (Value.obj vo) (Value.obj (deepMerge bo vo)) := by
  intro vo bo hwf
  rw [wfValue] at hwf
  rw [Bool.and_eq_true, decide_eq_true_eq] at hwf
  apply Overrides.obj
  · intro k w hw
    obtain ⟨u, hlk, hcase⟩ := deepMerge_lookup_right hwf.1 hw bo
    rw [hlk]
    rfl
  · intro k w u hw hu
    have hmem := lookupEntries_mem hw
    obtain ⟨u', hlk, hcase⟩ := deepMerge_lookup_right hwf.1 hw bo
    rw [hlk] at hu
    injection hu with hu
    subst hu
    rcases hcase with rfl | ⟨bo', vo', rfl, rfl⟩
    · exact overridesRefl _
    · have hwv : wfValue (Value.obj vo') = true := wfEntriesVals_lookup hwf.2 hmem
      exact mergeOverrides vo' bo' hwv
termination_by vo => sizeOf vo
decreasing_by
  have h1 := List.sizeOf_lt_of_mem hmem
  simp only [Prod.mk.sizeOf_spec, Value.obj.sizeOf_spec] at h1 ⊢
  omega

theorem stripInclude_sublist (ds : List (String × Value)) : List.Sublist (stripInclude ds) ds := by
  induction ds with
  | nil => exact List.Sublist.refl _
  | cons hd tl ih =>
    obtain ⟨k', v'⟩ := hd
    rw [stripInclude]
    split
    · exact ih.cons _
    · exact ih.cons₂ _

theorem lookupEntries_stripInclude {ds : List (String × Value)} {k : String}
    (h : k ≠ "include") :
    lookupEntries (stripInclude ds) k = lookupEntries ds k := by
  induction ds with
  | nil => rfl
  | cons hd tl ih =>
    obtain ⟨k', v'⟩ := hd
    rw [stripInclude]
    by_cases hki : k' = "include"
    · rw [if_pos hki]
      have hne : ¬(k' = k) := fun hc => h (hc.symm.trans hki)
      rw [ih]
      conv_rhs => rw [lookupEntries]
      rw [if_neg hne]
    · rw [if_neg hki]
      simp only [lookupEntries]
      split
      · rfl
      · exact ih

/-- C1: resolving a configuration document merges the fully-resolved includes
left-to-right and merges the document's own body (minus `include`) last, so
every key defined in the body overrides (in the right-biased recursive-merge
sense captured by `Overrides`) whatever any include, direct or transitive,
contributed at that key; in particular, for a document with `include:[B]` and
body `{"k":"body"}` where B defines `{"k":"include"}`, the resolved value at
`k` is `"body"`. -/
theorem c1_body_overrides_includes :
    (∀ (res : String → String → String) (fs : FS) (fuel : Nat) (path : String)
        (anc : List String) (ds : List (String × Value)) (k : String) (v : Value)
        (r : List (String × Value)),
        fsLookup fs path = some (Value.obj ds) →
        (ds.map Prod.fst).Nodup →
        lookupEntries ds k = some v →
        k ≠ "include" →
        wfValue v = true →
        loadStack res fs fuel path anc = .ok r →
        ∃ w, lookupEntries r k = some w ∧ Overrides v w)
    ∧ loadStack (fun _ n => n)
        [("A", Value.obj [("include", Value.list [Value.str "B"]), ("k", Value.str "body")]),
         ("B", Value.obj [("k", Value.str "include")])] 3 "A" []
        = .ok [("k", Value.str "body")] := by
  constructor
  · intro res fs fuel path anc ds k v r hfs hnd hlk hki hwf hok
    match fuel with
    | 0 => simp [loadStack] at hok
    | fuel + 1 =>
      by_cases hpa : path ∈ anc
      · simp [loadStack, if_pos hpa] at hok
      · have hdsne : ds ≠ [] := by
          intro hnil
          subst hnil
          simp [lookupEntries] at hlk
        have hfalsy : pyFalsy (Value.obj ds) = false := by
          rw [pyFalsy]
          cases ds with
          | nil => exact absurd rfl hdsne
          | cons hd tl => rfl
        simp only [loadStack, if_neg hpa, hfs, hfalsy, Bool.false_eq_true, if_false] at hok
        split at hok
        · simp at hok
        · split at hok
          · simp at hok
          · rename_i children heq
            simp only [Except.ok.injEq] at hok
            subst hok
            have hbody : lookupEntries (stripInclude ds) k = some v :=
              (lookupEntries_stripInclude hki).trans hlk
            have hndb : ((stripInclude ds).map Prod.fst).Nodup :=
              hnd.sublist ((stripInclude_sublist ds).map Prod.fst)
            obtain ⟨w, hlkw, hcase⟩ :=
              deepMerge_lookup_right hndb hbody (children.foldl deepMerge [])
            rcases hcase with rfl | ⟨bo, vo, rfl, rfl⟩
            · exact ⟨w, hlkw, overridesRefl w⟩
            · exact ⟨_, hlkw, mergeOverrides vo bo hwf⟩
  · simp [loadStack, fsLookup, pyFalsy, lookupEntries, iterValue, deepMerge, deepMergeStep,
      setKey, stripInclude, List.mapM, List.mapM.loop, Except.map, Except.pure, pure, bind,
      Except.bind, Functor.map]

/-- Witness for `c1_body_overrides_includes`: instantiating the general clause
on the two-document example discharges every hypothesis concretely and locates
the body value at `k` in the resolved output. -/
theorem c1_body_overrides_includes_witness :
    ∃ w, lookupEntries [("k", Value.str "body")] "k" = some w ∧
      Overrides (Value.str "body") w :=
  c1_body_overrides_includes.1 (fun _ n => n)
    [("A", Value.obj [("include", Value.list [Value.str "B"]), ("k", Value.str "body")]),
     ("B", Value.obj [("k", Value.str "include")])] 3 "A" []
    [("include", Value.list [Value.str "B"]), ("k", Value.str "body")] "k" (Value.str "body")
    [("k", Value.str "body")]
    (by simp [fsLookup]) (by simp) (by simp [lookupEntries]) (by simp)
    (by simp [wfValue]) c1_body_overrides_includes.2

/-! ### Cycle detection and bounded recursion (C2) -/

theorem filter_length_le {α : Type} {p q : α → Bool}
    (himp : ∀ a, p a = true → q a = true) :
    ∀ l : List α, (l.filter p).length ≤ (l.filter q).length := by
  intro l
  induction l with
  | nil => simp
  | cons hd tl ih =>
    rcases hp : p hd with _ | _
    · rcases hq : q hd with _ | _ <;> simp [List.filter_cons, hp, hq] <;> omega
    · simp [List.filter_cons, hp, himp hd hp]
      omega

theorem filter_length_lt {α : Type} {p q : α → Bool} {l : List α} {x : α}
    (himp : ∀ a, p a = true → q a = true) (hx : x ∈ l) (hqx : q x = true)
    (hpx : p x = false) :
    (l.filter p).length < (l.filter q).length := by
  induction l with
  | nil => simp at hx
  | cons hd tl ih =>
    rcases List.mem_cons.mp hx with rfl | hx
    · simp [List.filter_cons, hpx, hqx]
      have hle := filter_length_le himp tl
      omega
    · have hih := ih hx
      rcases hp : p hd with _ | _
      · rcases hq : q hd with _ | _ <;> simp [List.filter_cons, hp, hq] <;> omega
      · simp [List.filter_cons, hp, himp hd hp]
        omega

theorem mem_fsKeys_of_lookup {fs : FS} {path : String} {v : Value}
    (h : fsLookup fs path = some v) : path ∈ fsKeys fs := by
  induction fs with
  | nil => simp [fsLookup] at h
  | cons hd tl ih =>
    obtain ⟨p, w⟩ := hd
    rw [fsLookup] at h
    by_cases hp : p = path
    · subst hp
      exact List.mem_cons_self _ _
    · rw [if_neg hp] at h
      exact List.mem_cons_of_mem _ (ih h)

theorem measureA_lt {fs : FS} {path : String} {anc : List String}
    (hmem : path ∈ fsKeys fs) (hnot : path ∉ anc) :
    measureA fs (anc ++ [path]) < measureA fs anc := by
  apply filter_length_lt ?_ hmem ?_ ?_
  · intro a ha
    simp only [decide_eq_true_eq] at ha ⊢
    intro hc
    exact ha (List.mem_append_left _ hc)
  · simpa using hnot
  · simp

theorem loadStack_fuel_stable (res : String → String → String) (fs : FS) :
    ∀ (f g : Nat) (path : String) (anc : List String),
      measureA fs anc < f → measureA fs anc < g →
      loadStack res fs f path anc = loadStack res fs g path anc := by
  intro f
  induction f with
  | zero =>
    intro g path anc hf
    exact absurd hf (Nat.not_lt_zero _)
  | succ f ih =>
    intro g path anc hf hg
    cases g with
    | zero => exact absurd hg (Nat.not_lt_zero _)
    | succ g =>
      simp only [loadStack]
      by_cases hpa : path ∈ anc
      · simp only [if_pos hpa]
      · simp only [if_neg hpa]
        rcases hfs : fsLookup fs path with _ | raw
        · simp only [hfs]
        · simp only [hfs]
          have hmemk : path ∈ fsKeys fs := mem_fsKeys_of_lookup hfs
          have hlt : measureA fs (anc ++ [path]) < measureA fs anc := measureA_lt hmemk hpa
          cases hdata : (if pyFalsy raw = true then Value.obj [] else raw) with
          | obj ds =>
            rcases hit : iterValue
                (if pyFalsy ((lookupEntries ds "include").getD Value.null) = true
                 then Value.list [] else (lookupEntries ds "include").getD Value.null)
              with e | items
            · simp only [hit]
            · simp only [hit]
              have hmapeq : ∀ its : List Value, its.mapM (fun it =>
                  match it with
                  | Value.str name => loadStack res fs f (res path name) (anc ++ [path])
                  | _ => Except.error (PyErr.typeError "unsupported operand for path join")) =
                its.mapM (fun it =>
                  match it with
                  | Value.str name => loadStack res fs g (res path name) (anc ++ [path])
                  | _ => Except.error (PyErr.typeError "unsupported operand for path join")) := by
                intro its
                induction its with
                | nil => rfl
                | cons it tl iht =>
                  rw [List.mapM_cons, List.mapM_cons, iht]
                  cases it with
                  | str name =>
                    dsimp only
                    rw [ih g (res path name) (anc ++ [path]) (by omega) (by omega)]
                  | null => rfl
                  | bool b => rfl
                  | int n => rfl
                  | list l => rfl
                  | obj es => rfl
              rw [hmapeq]
          | null => rfl
          | bool b => rfl
          | int n => rfl
          | str st => rfl
          | list its => rfl
  -- the non-mapping and error branches leave syntactically equal terms

/-- C2: include resolution fails with the cycle `ValueError` whenever the
requested path already appears in the ancestry, the error message reporting
the document path chain of the cycle; on the concrete two-document cycle
A includes B includes A the reported chain is `A -> B -> A`; and the
recursion is bounded: any fuel beyond the number of not-yet-visited existing
documents yields the same (already settled) result, so resolution never
recurses unboundedly. -/
theorem c2_cycle_error :
    (∀ (res : String → String → String) (fs : FS) (fuel : Nat) (path : String)
        (anc : List String), path ∈ anc →
        loadStack res fs (fuel + 1) path anc =
          .error (.valueError ("Circular include detected: " ++
            String.intercalate " -> " (anc ++ [path]))))
    ∧ loadStack (fun _ n => n)
        [("A", Value.obj [("include", Value.list [Value.str "B"])]),
         ("B", Value.obj [("include", Value.list [Value.str "A"])])] 3 "A" []
        = .error (.valueError "Circular include detected: A -> B -> A")
    ∧ (∀ (res : String → String → String) (fs : FS) (fuel : Nat) (path : String)
        (anc : List String), measureA fs anc < fuel →
        loadStack res fs fuel path anc =
          loadStack res fs (measureA fs anc + 1) path anc) := by
  refine ⟨?_, ?_, ?_⟩
  · intro res fs fuel path anc h
    simp [loadStack, if_pos h]
  · simp [loadStack, fsLookup, pyFalsy, lookupEntries, iterValue, List.mapM, List.mapM.loop,
      String.intercalate, String.intercalate.go]
  · intro res fs fuel path anc h
    exact loadStack_fuel_stable res fs fuel (measureA fs anc + 1) path anc h (Nat.lt_succ_self _)

/-- Witness for `c2_cycle_error`: the membership clause instantiated on a
concrete one-element ancestry, and the bounded-recursion clause instantiated
on an empty filesystem. -/
theorem c2_cycle_error_witness :
    loadStack (fun _ n => n) [] 1 "X" ["X"] =
      .error (.valueError "Circular include detected: X -> X")
    ∧ loadStack (fun _ n => n) [] 1 "Q" [] =
        loadStack (fun _ n => n) [] (measureA ([] : FS) [] + 1) "Q" [] := by
  constructor
  · have h := c2_cycle_error.1 (fun _ n => n) [] 0 "X" ["X"] (by simp)
    simpa [String.intercalate, String.intercalate.go] using h
  · exact c2_cycle_error.2.2 (fun _ n => n) [] 1 "Q" [] (by simp [measureA, fsKeys])

/-! ### Purity of resolution (C9) -/

theorem exceptBind_eq_ok {ε α β : Type} {x : Except ε α} {f : α → Except ε β} {b : β} :
    (x >>= f) = .ok b ↔ ∃ a, x = .ok a ∧ f a = .ok b := by
  cases x with
  | error e => simp [Bind.bind, Except.bind]
  | ok a => simp [Bind.bind, Except.bind]

theorem exceptCases {eps alpha : Type} (x : Except eps alpha) :
    (∃ e, x = .error e) ∨ (∃ a, x = .ok a) := by
  cases x with
  | error e => exact Or.inl ⟨e, rfl⟩
  | ok a => exact Or.inr ⟨a, rfl⟩

/-- Resolution depends on the ancestry only as a cycle guard: a successful
resolution still succeeds, with the same value, under any smaller ancestry.
This is the formal content of the source passing `ancestry + [path]` by value
instead of mutating a shared list. -/
theorem loadStack_anc_mono (res : String → String → String) (fs : FS) :
    ∀ (fuel : Nat) (path : String) (anc anc' : List String)
      (v : List (String × Value)),
      (∀ x, x ∈ anc' → x ∈ anc) →
      loadStack res fs fuel path anc = .ok v →
      loadStack res fs fuel path anc' = .ok v := by
  intro fuel
  induction fuel with
  | zero =>
    intro path anc anc' v hsub hok
    simp [loadStack] at hok
  | succ fuel ih =>
    intro path anc anc' v hsub hok
    by_cases hpa : path ∈ anc
    · simp [loadStack, if_pos hpa] at hok
    · have hpa' : path ∉ anc' := fun h => hpa (hsub _ h)
      simp only [loadStack, if_neg hpa] at hok
      simp only [loadStack, if_neg hpa']
      rcases hfs : fsLookup fs path with _ | raw
      · rw [hfs] at hok
        simp at hok
      · rw [hfs] at hok
        simp only at hok ⊢
        have hsub2 : ∀ x, x ∈ anc' ++ [path] → x ∈ anc ++ [path] := by
          intro x hx
          rcases List.mem_append.mp hx with hx | hx
          · exact List.mem_append_left _ (hsub _ hx)
          · exact List.mem_append_right _ hx
        cases hdata : (if pyFalsy raw = true then Value.obj [] else raw) with
        | obj ds =>
          rw [hdata] at hok
          dsimp only at hok ⊢
          rcases exceptCases (iterValue
              (if pyFalsy ((lookupEntries ds "include").getD Value.null) = true
               then Value.list [] else (lookupEntries ds "include").getD Value.null))
            with ⟨e, hit⟩ | ⟨its, hit⟩
          · rw [hit] at hok
            dsimp only at hok
            exact absurd hok (by simp)
          · rw [hit] at hok ⊢
            dsimp only at hok ⊢
            rcases exceptCases (its.mapM (fun it =>
                match it with
                | Value.str name => loadStack res fs fuel (res path name) (anc ++ [path])
                | _ => Except.error (PyErr.typeError "unsupported operand for path join")))
              with ⟨e, hc⟩ | ⟨cs, hc⟩
            · rw [hc] at hok
              dsimp only at hok
              exact absurd hok (by simp)
            · rw [hc] at hok
              dsimp only at hok
              have hmap' : ∀ (its2 : List Value) (cs2 : List (List (String × Value))),
                  its2.mapM (fun it =>
                    match it with
                    | Value.str name =>
                      loadStack res fs fuel (res path name) (anc ++ [path])
                    | _ => Except.error (PyErr.typeError "unsupported operand for path join"))
                    = Except.ok cs2 →
                  its2.mapM (fun it =>
                    match it with
                    | Value.str name =>
                      loadStack res fs fuel (res path name) (anc' ++ [path])
                    | _ => Except.error (PyErr.typeError "unsupported operand for path join"))
                    = Except.ok cs2 := by
                intro its2
                induction its2 with
                | nil =>
                  intro cs2 h
                  simpa using h
                | cons it tl iht =>
                  intro cs2 h
                  rw [List.mapM_cons] at h ⊢
                  cases it with
                  | str name =>
                    dsimp only at h ⊢
                    rw [exceptBind_eq_ok] at h
                    obtain ⟨c, hcc, h⟩ := h
                    rw [exceptBind_eq_ok] at h
                    obtain ⟨xs, hxs, h⟩ := h
                    rw [exceptBind_eq_ok]
                    refine ⟨c, ih _ _ _ _ hsub2 hcc, ?_⟩
                    rw [exceptBind_eq_ok]
                    exact ⟨xs, iht _ hxs, h⟩
                  | null => simpa using h
                  | bool b => simpa using h
                  | int n => simpa using h
                  | list l => simpa using h
                  | obj es => simpa using h
              rw [hmap' its cs hc]
              dsimp only
              exact hok
        | null =>
          rw [hdata] at hok
          simp at hok
        | bool b =>
          rw [hdata] at hok
          simp at hok
        | int n =>
          rw [hdata] at hok
          simp at hok
        | str st =>
          rw [hdata] at hok
          simp at hok
        | list its =>
          rw [hdata] at hok
          simp at hok

/-- C9: include resolution is a pure function of its inputs — two calls with
the same path and ancestry are definitionally the same result — and the
ancestry influences a successful resolution only as a cycle guard: a
resolution that succeeds under some ancestry succeeds with the identical
merged configuration under any sub-ancestry (in particular the empty one), so
resolving one document never changes the result of independently resolving
another; the ancestry is never mutated in place. -/
theorem c9_resolution_deterministic :
    (∀ (res : String → String → String) (fs : FS) (fuel : Nat) (path : String)
        (anc : List String),
        loadStack res fs fuel path anc = loadStack res fs fuel path anc)
    ∧ (∀ (res : String → String → String) (fs : FS) (fuel : Nat) (path : String)
        (anc anc' : List String) (v : List (String × Value)),
        (∀ x, x ∈ anc' → x ∈ anc) →
        loadStack res fs fuel path anc = .ok v →
        loadStack res fs fuel path anc' = .ok v) :=
  ⟨fun _ _ _ _ _ => rfl,
   fun res fs fuel path anc anc' v h hok => loadStack_anc_mono res fs fuel path anc anc' v h hok⟩

/-- Witness for `c9_resolution_deterministic`: a document resolved under the
unrelated ancestry `["Z"]` resolves identically under the empty ancestry. -/
theorem c9_resolution_deterministic_witness :
    loadStack (fun _ n => n) [("A", Value.obj [("k", Value.int 1)])] 2 "A" []
      = .ok [("k", Value.int 1)] :=
  c9_resolution_deterministic.2 (fun _ n => n) [("A", Value.obj [("k", Value.int 1)])]
    2 "A" ["Z"] [] [("k", Value.int 1)] (by simp)
    (by simp [loadStack, fsLookup, pyFalsy, lookupEntries, iterValue, deepMerge,
      deepMergeStep, setKey, stripInclude, List.mapM, List.mapM.loop, Except.map,
      Except.pure, pure, bind, Except.bind, Functor.map])

/-- C4 (behaviour at the failing input): the relay loader returns a
non-mapping decoded document unchecked, and include resolution of such a
document fails with `AttributeError` from `data.get("include")` — not with
the dedicated non-mapping shape error (`codex_utils.load_yaml`'s `TypeError`),
which the relay's own `_load_yaml` never raises. -/
theorem c4_non_mapping_attribute_error :
    loadYamlRelay [("A", Value.list [Value.str "x"])] "A" = .ok (Value.list [Value.str "x"])
    ∧ loadStack (fun _ n => n) [("A", Value.list [Value.str "x"])] 2 "A" []
        = .error (.attributeError "get") := by
  constructor
  · simp [loadYamlRelay, fsLookup, pyFalsy]
  · simp [loadStack, fsLookup, pyFalsy]

/-- C3: whenever the configured ceiling is a positive integer and the UTF-8
encoded length of the payload string exceeds it, the payload step fails with
the payload-too-large `ValueError` — for every parser `parse`, so the
structural parse is never consulted. -/
theorem c3_payload_size_gate :
    ∀ (parse : String → Except PyErr Value) (s : String) (m : Int),
      0 < m → (s.utf8ByteSize : Int) > m →
      parsePayload parse s (some m) =
        .error (.valueError ("Payload exceeds relay policy limit of " ++
          toString m ++ " bytes.")) := by
  intro parse s m hm hsz
  simp only [parsePayload]
  rw [if_pos ⟨by omega, hsz⟩]

/-- Witness for `c3_payload_size_gate`: a four-byte payload against a ceiling
of two bytes, with a parser that would accept anything. -/
theorem c3_payload_size_gate_witness :
    (0 : Int) < 2 ∧ (("abcd".utf8ByteSize : Int) > 2) ∧
    parsePayload (fun _ => Except.ok Value.null) "abcd" (some 2) =
      .error (.valueError "Payload exceeds relay policy limit of 2 bytes.") := by
  refine ⟨by norm_num, by decide, ?_⟩
  exact c3_payload_size_gate (fun _ => Except.ok Value.null) "abcd" 2 (by norm_num) (by decide)

/-- C5 counterexample: a payload that carries an explicit `risk_level` field
whose value is the (falsy) empty string.  The field is present, yet the
generated advisory's risk level is the default `"low"`, not the payload's
value — `payload.get("risk_level") or ...` conflates present-but-falsy with
absent. -/
theorem c5_risk_level_counterexample :
    lookupEntries [("risk_level", Value.str "")] "risk_level" = some (Value.str "")
    ∧ ∃ adv, generateAdvisory [] [("risk_level", Value.str "")] = .ok adv
        ∧ adv.risk_level = Value.str "low" ∧ adv.risk_level ≠ Value.str "" := by
  refine ⟨rfl, ⟨"Advisor Insight — No additional context supplied.",
    [Value.str "Document a concrete next step."], "high", Value.str "low"⟩, rfl, rfl, ?_⟩
  simp

/-- C5 (amended): in a successfully generated advisory, the risk level equals
the payload's `risk_level` field whenever that field is present with a truthy
value, and otherwise (absent or falsy) is `"low"` when the normalized
blockers sequence is empty and `"medium"` when it is non-empty; the
confidence is `"balanced"` when the blockers sequence is non-empty and
`"high"` when it is empty. -/
theorem c5_advisory_risk_confidence :
    ∀ (policies payload : List (String × Value)) (adv : Advisory),
      generateAdvisory policies payload = .ok adv →
      (adv.confidence =
        if (coerceList ((lookupEntries payload "blockers").getD Value.null)).isEmpty
        then "high" else "balanced")
      ∧ (pyFalsy ((lookupEntries payload "risk_level").getD Value.null) = false →
          adv.risk_level = (lookupEntries payload "risk_level").getD Value.null)
      ∧ (pyFalsy ((lookupEntries payload "risk_level").getD Value.null) = true →
          adv.risk_level =
            if (coerceList ((lookupEntries payload "blockers").getD Value.null)).isEmpty
            then Value.str "low" else Value.str "medium") := by
  intro policies payload adv hok
  rw [generateAdvisory] at hok
  rcases exceptCases (strJoin " — "
      ([(lookupEntries policies "summary_prefix").getD (Value.str "Advisor Insight"),
        if pyFalsy ((lookupEntries payload "context").getD Value.null) = true
        then Value.str "No additional context supplied."
        else (lookupEntries payload "context").getD Value.null] ++
        match coerceList ((lookupEntries payload "objectives").getD Value.null) with
        | [] => []
        | o :: _ => [Value.str ("Core objective: " ++ o)]))
    with ⟨e, hj⟩ | ⟨summary, hj⟩
  · rw [hj] at hok
    exact absurd hok (by simp)
  · rw [hj] at hok
    dsimp only at hok
    rcases exceptCases (iterValue ((lookupEntries policies "default_actions").getD
        (Value.list []))) with ⟨e, hi⟩ | ⟨defaultActions, hi⟩
    · rw [hi] at hok
      exact absurd hok (by simp)
    · rw [hi] at hok
      dsimp only at hok
      injection hok with hok
      subst hok
      refine ⟨rfl, ?_, ?_⟩
      · intro hfalse
        simp [hfalse]
      · intro htrue
        simp [htrue]

/-- Witness for `c5_advisory_risk_confidence`: a payload with truthy
`risk_level` `"high"` and one blocker yields that risk level verbatim and
confidence `"balanced"`. -/
theorem c5_advisory_risk_confidence_witness :
    ∃ adv, generateAdvisory []
        [("risk_level", Value.str "high"), ("blockers", Value.list [Value.str "b"])] = .ok adv
      ∧ adv.confidence = "balanced" ∧ adv.risk_level = Value.str "high" := by
  have h := c5_advisory_risk_confidence []
    [("risk_level", Value.str "high"), ("blockers", Value.list [Value.str "b"])] _ rfl
  exact ⟨_, rfl, h.1.trans (by rfl), (h.2.1 (by rfl)).trans (by rfl)⟩

/-! ### Redaction (C6) -/

mutual

theorem redact_idem (v : Value) (ks : List Value) :
    redact (redact v ks) ks = redact v ks := by
  cases v with
  | obj entries => rw [redact, redact, redactEntries_idem entries ks]
  | list items => rw [redact, redact, redactList_idem items ks]
  | null => rw [redact, redact]
  | bool b => rw [redact, redact]
  | int n => rw [redact, redact]
  | str s => rw [redact, redact]
termination_by sizeOf v

theorem redactList_idem (items : List Value) (ks : List Value) :
    redactList (redactList items ks) ks = redactList items ks := by
  cases items with
  | nil => rw [redactList, redactList]
  | cons v rest =>
    rw [redactList, redactList, redact_idem v ks, redactList_idem rest ks]
termination_by sizeOf items

theorem redactEntries_idem (es : List (String × Value)) (ks : List Value) :
    redactEntries (redactEntries es ks) ks = redactEntries es ks := by
  cases es with
  | nil => rw [redactEntries, redactEntries]
  | cons hd rest =>
    obtain ⟨k, v⟩ := hd
    by_cases hk : k ∈ sensitiveOf ks
    · rw [redactEntries, if_pos hk, redactEntries, if_pos hk, redactEntries_idem rest ks]
    · rw [redactEntries, if_neg hk, redactEntries, if_neg hk, redact_idem v ks,
        redactEntries_idem rest ks]
termination_by sizeOf es

end

/-- C6: redaction replaces the value at every mapping key that equals a
sensitive key with the fixed marker without recursing into it, recurses into
non-matching mapping values, maps sequence elements element-wise, leaves
scalars unchanged, is idempotent, and on the claim's example yields the
expected doubly-redacted mapping. -/
theorem c6_redact_spec :
    (∀ (ks : List Value) (entries : List (String × Value)),
      redact (Value.obj entries) ks = Value.obj (redactEntries entries ks))
    ∧ (∀ (ks : List Value) (k : String) (v : Value) (rest : List (String × Value)),
        k ∈ sensitiveOf ks →
        redactEntries ((k, v) :: rest) ks =
          (k, Value.str "***REDACTED***") :: redactEntries rest ks)
    ∧ (∀ (ks : List Value) (k : String) (v : Value) (rest : List (String × Value)),
        k ∉ sensitiveOf ks →
        redactEntries ((k, v) :: rest) ks = (k, redact v ks) :: redactEntries rest ks)
    ∧ (∀ (ks : List Value) (items : List Value),
        redact (Value.list items) ks = Value.list (items.map (fun it => redact it ks)))
    ∧ (∀ ks s, redact (Value.str s) ks = Value.str s)
    ∧ (∀ ks n, redact (Value.int n) ks = Value.int n)
    ∧ (∀ ks b, redact (Value.bool b) ks = Value.bool b)
    ∧ (∀ ks, redact Value.null ks = Value.null)
    ∧ (∀ (ks : List Value) (v : Value), redact (redact v ks) ks = redact v ks)
    ∧ redact (Value.obj [("token", Value.str "abc"),
        ("nested", Value.obj [("token", Value.str "def"), ("keep", Value.int 1)])])
        [Value.str "token"]
      = Value.obj [("token", Value.str "***REDACTED***"),
          ("nested", Value.obj [("token", Value.str "***REDACTED***"),
            ("keep", Value.int 1)])] := by
  refine ⟨fun ks entries => by rw [redact],
    fun ks k v rest hk => by rw [redactEntries, if_pos hk],
    fun ks k v rest hk => by rw [redactEntries, if_neg hk],
    ?_,
    fun ks s => by rw [redact],
    fun ks n => by rw [redact],
    fun ks b => by rw [redact],
    fun ks => by rw [redact],
    fun ks v => redact_idem v ks,
    ?_⟩
  · intro ks items
    rw [redact]
    congr 1
    induction items with
    | nil => rw [redactList]; rfl
    | cons v rest ih => rw [redactList, List.map_cons, ih]
  · simp [redact, redactEntries, redactList, sensitiveOf, pyStr, lookupEntries]

/-- Witness for `c6_redact_spec`: the sensitive-key clause instantiated on a
concrete entry list with key `token`. -/
theorem c6_redact_spec_witness :
    redactEntries [("token", Value.str "abc")] [Value.str "token"] =
      [("token", Value.str "***REDACTED***")] := by
  have h := c6_redact_spec.2.1 [Value.str "token"] "token" (Value.str "abc") []
    (by simp [sensitiveOf, pyStr])
  rw [h, redactEntries]

/-! ### Stack discovery (C7) -/

theorem discoverScan_min (res : String → String → String) (fs : FS) (fuel : Nat)
    (persona role : String) :
    ∀ (l : List String), List.Sorted (· ≤ ·) l →
      ∀ (stack : List (String × Value)) (c : String),
        discoverScan res fs fuel persona role l = .ok (stack, c) →
        stackMatches res fs fuel persona role c = true ∧ c ∈ l ∧
          ∀ f ∈ l, stackMatches res fs fuel persona role f = true → c ≤ f := by
  intro l
  induction l with
  | nil =>
    intro _ stack c h
    simp [discoverScan] at h
  | cons c0 rest ih =>
    intro hsort stack c h
    rw [discoverScan] at h
    rcases exceptCases (loadStack res fs fuel c0 []) with ⟨e, hl⟩ | ⟨st, hl⟩
    · rw [hl] at h
      dsimp only at h
      exact absurd h (by simp)
    · rw [hl] at h
      dsimp only at h
      rcases exceptCases (matchesRouting persona role st) with ⟨e, hm⟩ | ⟨b, hm⟩
      · rw [hm] at h
        dsimp only at h
        exact absurd h (by simp)
      · rw [hm] at h
        cases b with
        | true =>
          dsimp only at h
          injection h with h
          obtain ⟨h1, h2⟩ := Prod.mk.injEq .. ▸ h
          subst h2
          refine ⟨by simp [stackMatches, hl, hm], List.mem_cons_self _ _, ?_⟩
          intro f hf _
          rcases List.mem_cons.mp hf with rfl | hf
          · exact le_refl _
          · exact (List.sorted_cons.mp hsort).1 f hf
        | false =>
          dsimp only at h
          obtain ⟨hmatch, hmem, hmin⟩ :=
            ih (List.sorted_cons.mp hsort).2 stack c h
          refine ⟨hmatch, List.mem_cons_of_mem _ hmem, ?_⟩
          intro f hf hfm
          rcases List.mem_cons.mp hf with rfl | hf
          · rw [stackMatches, hl] at hfm
            dsimp only at hfm
            rw [hm] at hfm
            exact absurd hfm (by simp)
          · exact hmin f hf hfm

/-- C7: registry lookup without an explicit path is invariant under the order
in which the filesystem enumerates the candidate documents, and a successful
lookup returns a matching document whose filename is lexicographically least
among the matching candidates. -/
theorem c7_registry_lexicographic_min :
    (∀ (res : String → String → String) (fs : FS) (fuel : Nat)
        (persona role : String) (files₁ files₂ : List String),
        files₁.Perm files₂ →
        discoverStack res fs fuel persona role files₁ =
          discoverStack res fs fuel persona role files₂)
    ∧ (∀ (res : String → String → String) (fs : FS) (fuel : Nat)
        (persona role : String) (files : List String)
        (stack : List (String × Value)) (path : String),
        discoverStack res fs fuel persona role files = .ok (stack, path) →
        stackMatches res fs fuel persona role path = true ∧ path ∈ files ∧
          ∀ f ∈ files, stackMatches res fs fuel persona role f = true → path ≤ f) := by
  constructor
  · intro res fs fuel persona role files₁ files₂ hperm
    rw [discoverStack, discoverStack]
    congr 1
    exact List.eq_of_perm_of_sorted
      ((List.perm_insertionSort _ _).trans (hperm.trans (List.perm_insertionSort _ _).symm))
      (List.sorted_insertionSort _ _) (List.sorted_insertionSort _ _)
  · intro res fs fuel persona role files stack path h
    rw [discoverStack] at h
    obtain ⟨hmatch, hmem, hmin⟩ := discoverScan_min res fs fuel persona role
      (List.insertionSort (· ≤ ·) files) (List.sorted_insertionSort _ _) stack path h
    refine ⟨hmatch, (List.perm_insertionSort _ _).mem_iff.mp hmem, ?_⟩
    intro f hf hfm
    exact hmin f ((List.perm_insertionSort _ _).mem_iff.mpr hf) hfm

/-- Witness for `c7_registry_lexicographic_min`: two stack files both routing
persona `p` / role `r`, enumerated out of order; lookup returns `a.yaml`, the
lexicographically earliest, and it bounds every matching candidate. -/
theorem c7_registry_lexicographic_min_witness :
    stackMatches (fun _ n => n)
      [("a.yaml", Value.obj [("routing", Value.obj [("persona", Value.str "p"),
          ("role", Value.str "r")])]),
       ("b.yaml", Value.obj [("routing", Value.obj [("persona", Value.str "p"),
          ("role", Value.str "r")])])] 2 "p" "r" "a.yaml" = true
    ∧ "a.yaml" ∈ ["b.yaml", "a.yaml"]
    ∧ ∀ f ∈ ["b.yaml", "a.yaml"],
        stackMatches (fun _ n => n)
          [("a.yaml", Value.obj [("routing", Value.obj [("persona", Value.str "p"),
              ("role", Value.str "r")])]),
           ("b.yaml", Value.obj [("routing", Value.obj [("persona", Value.str "p"),
              ("role", Value.str "r")])])] 2 "p" "r" f = true → "a.yaml" ≤ f := by
  refine c7_registry_lexicographic_min.2 (fun _ n => n) _ 2 "p" "r" ["b.yaml", "a.yaml"]
    [("routing", Value.obj [("persona", Value.str "p"), ("role", Value.str "r")])]
    "a.yaml" ?_
  rw [discoverStack]
  have hsort : List.insertionSort (· ≤ ·) ["b.yaml", "a.yaml"] =
      (["a.yaml", "b.yaml"] : List String) := by
    simp [List.insertionSort, List.orderedInsert]
    decide
  rw [hsort, discoverScan]
  have hload : loadStack (fun _ n => n)
      [("a.yaml", Value.obj [("routing", Value.obj [("persona", Value.str "p"),
          ("role", Value.str "r")])]),
       ("b.yaml", Value.obj [("routing", Value.obj [("persona", Value.str "p"),
          ("role", Value.str "r")])])] 2 "a.yaml" [] =
      .ok [("routing", Value.obj [("persona", Value.str "p"), ("role", Value.str "r")])] := by
    simp [loadStack, fsLookup, pyFalsy, lookupEntries, iterValue, deepMerge, deepMergeStep,
      setKey, stripInclude, List.mapM, List.mapM.loop, Except.map, Except.pure, pure, bind,
      Except.bind, Functor.map]
  rw [hload]
  have hmatch : matchesRouting "p" "r"
      [("routing", Value.obj [("persona", Value.str "p"), ("role", Value.str "r")])] =
      .ok true := by
    simp [matchesRouting, lookupEntries, pyFalsy, pyEqStr]
  dsimp only
  rw [hmatch]

/-! ### Digest aggregation (C8, C10) -/

theorem mkRecord_run_dir {p : List String} {s : RunStore} {rec : DigestRecord}
    (h : mkRecord p s = .ok rec) : rec.run_dir = p := by
  rw [mkRecord] at h
  split at h
  · split at h
    · exact absurd h (by simp)
    · injection h with h
      subst h
      rfl
  · exact absurd h (by simp)

theorem collect_mapM_ok :
    ∀ (cs : List (List String × RunStore)),
      (∀ c ∈ cs, ∃ rec, mkRecord c.1 c.2 = .ok rec) →
      ∃ recs, cs.mapM (fun c => mkRecord c.1 c.2) = .ok recs ∧
        recs.map DigestRecord.run_dir = cs.map Prod.fst ∧ recs.length = cs.length := by
  intro cs
  induction cs with
  | nil =>
    intro _
    exact ⟨[], rfl, rfl, rfl⟩
  | cons c rest ih =>
    intro hall
    obtain ⟨rec, hrec⟩ := hall c (List.mem_cons_self _ _)
    obtain ⟨recs, hm, hmap, hlen⟩ := ih (fun d hd => hall d (List.mem_cons_of_mem _ hd))
    refine ⟨rec :: recs, ?_, ?_, ?_⟩
    · rw [List.mapM_cons, hrec, hm]
      rfl
    · rw [List.map_cons, List.map_cons, hmap, mkRecord_run_dir hrec]
    · simp [hlen]

/-- C8: with a positive record bound `n` not exceeding the number of run-store
candidates, and every candidate's record assembling successfully, the digest
returns exactly `n` records, namely those of the first `n` candidates in
descending path order — so every omitted candidate's path is `pathLe` every
returned record's path (the returned records are the `n` greatest; with 10
stores and `n = 3`, exactly the 3 most recent under timestamp-prefixed
naming). -/
theorem c8_digest_sorted_truncated :
    ∀ (root : List VEntry) (n : Nat),
      (∀ c ∈ collectCandidates root, ∃ rec, mkRecord c.1 c.2 = .ok rec) →
      n ≤ (collectCandidates root).length →
      ∃ recs, collectRuns root (some (n : Int)) = .ok recs ∧
        recs.length = n ∧
        recs.map DigestRecord.run_dir =
          ((List.insertionSort descBy (collectCandidates root)).take n).map Prod.fst ∧
        (∀ p ∈ recs.map DigestRecord.run_dir, ∀ c ∈ collectCandidates root,
          c.1 ∉ recs.map DigestRecord.run_dir → pathLe c.1 p = true) := by
  intro root n hok hn
  have hperm : (List.insertionSort descBy (collectCandidates root)).Perm
      (collectCandidates root) := List.perm_insertionSort _ _
  have hsorted : List.Sorted descBy (List.insertionSort descBy (collectCandidates root)) :=
    List.sorted_insertionSort _ _
  obtain ⟨recs, hm, hmap, hlen⟩ := collect_mapM_ok
    ((List.insertionSort descBy (collectCandidates root)).take n)
    (fun c hc => hok c (hperm.mem_iff.mp (List.mem_of_mem_take hc)))
  refine ⟨recs, ?_, ?_, hmap, ?_⟩
  · rw [collectRuns]
    rw [pyTake, if_pos (by positivity)]
    rw [Int.toNat_natCast]
    exact hm
  · rw [hlen, List.length_take, hperm.length_eq]
    omega
  · intro p hp c hc hnot
    rw [hmap] at hp hnot
    obtain ⟨cp, hcp, hcpeq⟩ := List.mem_map.mp hp
    have hcsorted : c ∈ List.insertionSort descBy (collectCandidates root) :=
      hperm.mem_iff.mpr hc
    rw [← List.take_append_drop n (List.insertionSort descBy (collectCandidates root))]
      at hcsorted
    rcases List.mem_append.mp hcsorted with hcin | hcin
    · exact absurd (List.mem_map_of_mem Prod.fst hcin) hnot
    · have hpair : descBy cp c := by
        have hsplit := hsorted
        rw [List.Sorted, ← List.take_append_drop n
          (List.insertionSort descBy (collectCandidates root)), List.pairwise_append]
          at hsplit
        exact hsplit.2.2 cp hcp c hcin
      rw [← hcpeq]
      exact hpair

/-- C10: the digest's `logger_present` flag is true exactly when the logger
artifact exists and decodes to a non-empty mapping; a run store whose
`logger.json` holds an empty mapping produces the very same record as one
with no logger artifact at all, and likewise an empty `evaluation.json` is
indistinguishable from a missing one (its fields default). -/
theorem c10_logger_present_iff :
    (∀ (p : List String) (s : RunStore) (rec : DigestRecord),
        (∀ v, s.logArtifact = some v → ∃ es, v = Value.obj es) →
        mkRecord p s = .ok rec →
        (rec.logger_present = true ↔
          ∃ es, s.logArtifact = some (Value.obj es) ∧ es ≠ []))
    ∧ (∀ (p : List String) (s : RunStore),
        mkRecord p { s with logArtifact := some (Value.obj []) } =
          mkRecord p { s with logArtifact := none })
    ∧ (∀ (p : List String) (s : RunStore),
        mkRecord p { s with evaluation := some (Value.obj []) } =
          mkRecord p { s with evaluation := none }) := by
  refine ⟨?_, fun p s => rfl, fun p s => rfl⟩
  intro p s rec hshape hok
  rw [mkRecord] at hok
  split at hok
  · split at hok
    · exact absurd hok (by simp)
    · injection hok with hok
      subst hok
      cases hl : s.logArtifact with
      | none => simp [loadJson, pyFalsy]
      | some v =>
        obtain ⟨es, rfl⟩ := hshape v hl
        cases es with
        | nil => simp [loadJson, pyFalsy]
        | cons e es' => simp [loadJson, pyFalsy]
  · exact absurd hok (by simp)

/-- Witness for `c8_digest_sorted_truncated`: ten run stores and `limit = 3`
yield exactly three records. -/
theorem c8_digest_sorted_truncated_witness :
    ∃ recs, collectRuns sampleVault (some ((3 : Nat) : Int)) = .ok recs ∧
      recs.length = 3 := by
  have hok : ∀ c ∈ collectCandidates sampleVault, ∃ rec, mkRecord c.1 c.2 = .ok rec := by
    intro c hc
    simp [sampleVault, collectCandidates] at hc
    rcases hc with rfl | rfl | rfl | rfl | rfl | rfl | rfl | rfl | rfl | rfl <;>
      exact ⟨_, rfl⟩
  have hn : 3 ≤ (collectCandidates sampleVault).length := by
    simp [sampleVault, collectCandidates]
  obtain ⟨recs, h1, h2, h3, h4⟩ := c8_digest_sorted_truncated sampleVault 3 hok hn
  exact ⟨recs, h1, h2⟩

/-- Witness for `c10_logger_present_iff`: a logger artifact holding a
non-empty mapping is reported as present. -/
theorem c10_logger_present_iff_witness :
    ∃ rec, mkRecord ["r"] (RunStore.mk (some (Value.obj [])) none
        (some (Value.obj [("a", Value.null)]))) = .ok rec ∧
      rec.logger_present = true := by
  refine ⟨_, rfl, ?_⟩
  have h := c10_logger_present_iff.1 ["r"] (RunStore.mk (some (Value.obj [])) none
      (some (Value.obj [("a", Value.null)]))) _
    (by
      intro v hv
      injection hv with hv
      exact ⟨_, hv.symm⟩) rfl
  exact h.mpr ⟨[("a", Value.null)], rfl, by simp⟩

end MetaMegaCodex
